import Mathlib

/-!
# Verification of the Eytzinger-layout binary search (src/cpp/eytzinger.hpp)

This file gives a shallow embedding of the C++ header `src/cpp/eytzinger.hpp`
and proves properties of it.

Modelling conventions:
* `std::vector<int> t` of size `n+1` is modelled as a total function
  `t : ℕ → ℤ`; the construction lemmas show that only indices `0..n` are ever
  written (all other indices keep the `resize` default `0`), which captures the
  `n+1`-element extent of the vector.
* Machine integers (`int`, `long`) are modelled as unbounded `ℤ` for element
  values and unbounded `ℕ` for the traversal index `k` and sizes; none of the
  verified statements depend on 32/64-bit wrap-around (the algorithm keeps
  `k ≤ 2n+1`).
* `__builtin_ffs(~k)` (1-based position of the lowest set bit of the bitwise
  complement) equals, for `k ≥ 0`, one plus the number of trailing one-bits of
  `k`; we model it as `ctones k + 1`.
* The C++ `while`/recursive functions are written with an explicit fuel
  argument so that they are structurally recursive (and hence compute by
  kernel reduction); lemmas below show the chosen fuel is never exhausted,
  so the embedding agrees with the unbounded loops of the source.
* `__builtin_prefetch` is a non-binding cache hint with no effect on the
  architectural state; in the prefetch variants we keep the computation of the
  prefetch address as a dead `let` binding.
-/

/-- Pointwise update of a store `t` at index `k`, modelling `t[k] = v`. -/
def upd (t : ℕ → ℤ) (k : ℕ) (v : ℤ) : ℕ → ℤ :=
  fun j => if j = k then v else t j

/-- Fuelled count of trailing one-bits of a natural number. -/
def ctonesFuel : ℕ → ℕ → ℕ
  | 0, _ => 0
  | f + 1, k => if k % 2 = 1 then ctonesFuel f (k / 2) + 1 else 0

/-- Number of trailing one-bits of `k` (fuel `k` always suffices). -/
def ctones (k : ℕ) : ℕ := ctonesFuel k k

/-- `k >>= __builtin_ffs(~k)`: strip the trailing run of one-bits of `k`
together with the zero-bit just above it.  This is the index-recovery step
shared by all four Eytzinger lower-bound variants. -/
def strip (k : ℕ) : ℕ := k >>> (ctones k + 1)

/-- Fuelled base-2 logarithm: `⌊log₂ m⌋` for `1 ≤ m ≤ f`. -/
def log2Fuel : ℕ → ℕ → ℕ
  | 0, _ => 0
  | f + 1, m => if m ≤ 1 then 0 else log2Fuel f (m / 2) + 1

/-- The C++ helper `lg` (portable `std::__lg`): `-1` on `0`, otherwise
`31 - __builtin_clz(n) = ⌊log₂ n⌋` (the source only applies it to values
far below `2^31`). -/
def lg (m : ℕ) : ℤ := if m = 0 then -1 else (log2Fuel m m : ℤ)

/-- `iters = lg(n + 1)` computed at construction. -/
def iters (n : ℕ) : ℕ := (lg (n + 1)).toNat

/-- The in-order list of implicit-tree indices of the subtree rooted at `k`,
restricted to indices `≤ n` (children of `j` at `2j` and `2j+1`), with
explicit fuel.  This is the order in which `Eytzinger::eytzinger` visits the
store indices. -/
def inorderFuel (n : ℕ) : ℕ → ℕ → List ℕ
  | 0, _ => []
  | f + 1, k =>
    if k ≤ n then
      inorderFuel n f (2 * k) ++ k :: inorderFuel n f (2 * k + 1)
    else []

/-- In-order index list of the subtree rooted at `k`; fuel `n + 1` suffices
for every root `k ≥ 1` (the recursion depth from `k` is at most `n + 1 - k`). -/
def inorder (n k : ℕ) : List ℕ := inorderFuel n (n + 1) k

/-- Shallow embedding of the recursive builder
`int eytzinger(vector<int>& arr, int i = 0, int k = 1)`:
state-passing version returning the advanced cursor `i` and the updated
store `t`.  Fuel is structural; children of level `f+1` run at fuel `f`,
matching `inorderFuel`. -/
def eytzAux (n : ℕ) (arr : List ℤ) : ℕ → ℕ → ℕ → (ℕ → ℤ) → ℕ × (ℕ → ℤ)
  | 0, i, _, t => (i, t)
  | f + 1, i, k, t =>
    if k ≤ n then
      let p := eytzAux n arr f i (2 * k) t
      eytzAux n arr f (p.1 + 1) (2 * k + 1) (upd p.2 k (arr.getD p.1 0))
    else (i, t)

/-- The store produced by the constructor `Eytzinger(sorted_array)`:
`t.resize(n+1)` zero-fills, `t[0] = -1` installs the sentinel, then
`eytzinger(sorted_array)` runs from cursor `0` at root `1`. -/
def buildT (arr : List ℤ) : ℕ → ℤ :=
  (eytzAux arr.length arr (arr.length + 1) 0 1
    (fun j => if j = 0 then (-1 : ℤ) else 0)).2

/-- Fuelled embedding of the `while (k <= n) k = 2*k + (t[k] < x);` loop of
`lower_bound_original`. -/
def lbLoop (n : ℕ) (t : ℕ → ℤ) (x : ℤ) : ℕ → ℕ → ℕ
  | 0, k => k
  | f + 1, k =>
    if k ≤ n then lbLoop n t x f (2 * k + if t k < x then 1 else 0) else k

/-- `Eytzinger::lower_bound_original`: descend from the root while in range,
then recover the index with the `ffs` bit-trick. -/
def lower_bound_original (n : ℕ) (t : ℕ → ℤ) (x : ℤ) : ℕ :=
  strip (lbLoop n t x (n + 1) 1)

/-- The `for (int i = 0; i < iters; i++) k = 2*k + (t[k] < x);` loop of the
fixed-iteration variants: the first argument is the number of remaining
iterations. -/
def fixedLoop (n : ℕ) (t : ℕ → ℤ) (x : ℤ) : ℕ → ℕ → ℕ
  | 0, k => k
  | i + 1, k => fixedLoop n t x i (2 * k + if t k < x then 1 else 0)

/-- `Eytzinger::lower_bound_fixed_iter`: `iters` unconditional steps, then the
predicated final step (`loc = k <= n ? &t[k] : &t[0]`), then the bit-trick. -/
def lower_bound_fixed_iter (n : ℕ) (t : ℕ → ℤ) (x : ℤ) : ℕ :=
  let k := fixedLoop n t x (iters n) 1
  let loc := if k ≤ n then t k else t 0
  strip (2 * k + if loc < x then 1 else 0)

/-- The traversal loop of `lower_bound_prefetch`; the prefetch address
`min(k * 16, t.size() - 1)` is computed but (being a pure cache hint) has no
architectural effect, so it is a dead binding. -/
def lbLoopPre (n : ℕ) (t : ℕ → ℤ) (x : ℤ) : ℕ → ℕ → ℕ
  | 0, k => k
  | f + 1, k =>
    if k ≤ n then
      let _pf := min (k * 16) n
      lbLoopPre n t x f (2 * k + if t k < x then 1 else 0)
    else k

/-- `Eytzinger::lower_bound_prefetch`. -/
def lower_bound_prefetch (n : ℕ) (t : ℕ → ℤ) (x : ℤ) : ℕ :=
  strip (lbLoopPre n t x (n + 1) 1)

/-- The fixed-iteration loop of `lower_bound_fixed_iter_prefetch` (again the
prefetch address is a dead binding). -/
def fixedLoopPre (n : ℕ) (t : ℕ → ℤ) (x : ℤ) : ℕ → ℕ → ℕ
  | 0, k => k
  | i + 1, k =>
    let _pf := min (k * 16) n
    fixedLoopPre n t x i (2 * k + if t k < x then 1 else 0)

/-- `Eytzinger::lower_bound_fixed_iter_prefetch`. -/
def lower_bound_fixed_iter_prefetch (n : ℕ) (t : ℕ → ℤ) (x : ℤ) : ℕ :=
  let k := fixedLoopPre n t x (iters n) 1
  let loc := if k ≤ n then t k else t 0
  strip (2 * k + if loc < x then 1 else 0)

/-- `Eytzinger::get_value`: `index < t.size() ? t[index] : -1` with
`t.size() = n + 1`. -/
def get_value (n : ℕ) (t : ℕ → ℤ) (index : ℕ) : ℤ :=
  if index < n + 1 then t index else -1

/-- The `while (high - low > 1)` loop of `naive_binary_search`, with fuel
(the interval at least halves each round, so fuel `arr.length + 1`
suffices). -/
def naiveLoop (arr : List ℤ) (x : ℤ) : ℕ → ℕ → ℕ → ℕ
  | 0, _, high => high
  | f + 1, low, high =>
    if 1 < high - low then
      let mid := (high + low) / 2
      if arr.getD mid 0 < x then naiveLoop arr x f mid high
      else naiveLoop arr x f low mid
    else high

/-- `naive_binary_search(arr, x)`: early return `0` when the array is empty or
`arr[0] >= x`, else the `[low, high)` bisection loop. -/
def naive_binary_search (arr : List ℤ) (x : ℤ) : ℕ :=
  if arr = [] ∨ x ≤ arr.getD 0 0 then 0
  else naiveLoop arr x (arr.length + 1) 0 arr.length

/-- `std_lower_bound(arr, x)`.  `std::lower_bound` is standard-library code
(not in this repository); per its contract it returns the partition point of
`· < x`, i.e. the length of the maximal initial run of elements `< x` —
which on the sorted inputs used here is the first position holding an element
not less than `x`. -/
def std_lower_bound (arr : List ℤ) (x : ℤ) : ℕ :=
  (arr.takeWhile (fun e => decide (e < x))).length

/-- The rank of `x` in the sense of the specification: the number of elements
of `arr` strictly less than `x`. -/
def countLt (arr : List ℤ) (x : ℤ) : ℕ :=
  arr.countP (fun e => decide (e < x))

/-- First index in the list `l` of tree indices whose stored value is not
less than `x`, defaulting to `c`.  This is the "ghost" value that the
bit-trick `strip` recovers from the traversal state. -/
def findGE (t : ℕ → ℤ) (x : ℤ) (l : List ℕ) (c : ℕ) : ℕ :=
  match l.find? (fun j => decide (x ≤ t j)) with
  | some j => j
  | none => c

example : buildT [1, 3, 5, 7, 9, 11] 4 = 1 := by decide
example : buildT [1, 3, 5, 7, 9, 11] 1 = 7 := by decide
example : buildT [1, 3, 5, 7, 9, 11] 0 = -1 := by decide
example : lower_bound_original 6 (buildT [1, 3, 5, 7, 9, 11]) 5 = 5 := by decide
example : lower_bound_fixed_iter 6 (buildT [1, 3, 5, 7, 9, 11]) 5 = 5 := by decide
example : naive_binary_search [1, 3, 5, 7, 9, 11] 5 = 2 := by decide
example : inorder 6 1 = [4, 2, 5, 1, 6, 3] := by decide

/-! ## Bit-manipulation lemmas for the index-recovery trick -/

theorem ctonesFuel_irrel : ∀ f f' k, k ≤ f → k ≤ f' →
    ctonesFuel f k = ctonesFuel f' k := by
  intro f
  induction f with
  | zero =>
    intro f' k hf hf'
    interval_cases k
    cases f' <;> simp [ctonesFuel]
  | succ f ih =>
    intro f' k hf hf'
    cases f' with
    | zero =>
      interval_cases k
      simp [ctonesFuel]
    | succ g =>
      simp only [ctonesFuel]
      by_cases hk : k % 2 = 1
      · have h1 : 1 ≤ k := by omega
        rw [if_pos hk, if_pos hk, ih g (k / 2) (by omega) (by omega)]
      · rw [if_neg hk, if_neg hk]

theorem ctonesFuel_even (f k : ℕ) (h : k % 2 = 0) : ctonesFuel f k = 0 := by
  cases f with
  | zero => rfl
  | succ f => simp [ctonesFuel, h]

theorem ctones_two_mul (k : ℕ) : ctones (2 * k) = 0 :=
  ctonesFuel_even _ _ (by omega)

theorem ctones_two_mul_add_one (k : ℕ) : ctones (2 * k + 1) = ctones k + 1 := by
  show ctonesFuel (2 * k + 1) (2 * k + 1) = ctonesFuel k k + 1
  simp only [ctonesFuel]
  have h1 : (2 * k + 1) % 2 = 1 := by omega
  have h2 : (2 * k + 1) / 2 = k := by omega
  rw [if_pos h1, h2, ctonesFuel_irrel (2 * k) k k (by omega) le_rfl]

theorem strip_one : strip 1 = 0 := by decide

theorem strip_two_mul (k : ℕ) : strip (2 * k) = k := by
  rw [strip, ctones_two_mul, Nat.shiftRight_eq_div_pow]
  omega

theorem strip_two_mul_add_one (k : ℕ) : strip (2 * k + 1) = strip k := by
  rw [strip, strip, ctones_two_mul_add_one, Nat.shiftRight_eq_div_pow,
    Nat.shiftRight_eq_div_pow]
  have h3 : (2 * k + 1) / 2 = k := by omega
  have h4 : (2 * k + 1) / 2 ^ (ctones k + 1 + 1) =
      (2 * k + 1) / 2 / 2 ^ (ctones k + 1) := by
    rw [Nat.div_div_eq_div_mul]
    congr 1
    ring
  rw [h4, h3]

/-! ## `lg` and `iters` -/

theorem log2Fuel_bounds : ∀ f m, 1 ≤ m → m ≤ f →
    2 ^ log2Fuel f m ≤ m ∧ m < 2 ^ (log2Fuel f m + 1) := by
  intro f
  induction f with
  | zero => intro m h1 h2; omega
  | succ f ih =>
    intro m h1 h2
    by_cases hm : m ≤ 1
    · have : m = 1 := by omega
      subst this
      simp [log2Fuel]
    · have h3 : 1 ≤ m / 2 := by omega
      have h4 : m / 2 ≤ f := by omega
      have h5 := ih (m / 2) h3 h4
      simp only [log2Fuel, if_neg hm]
      constructor
      · have : 2 ^ (log2Fuel f (m / 2) + 1) = 2 * 2 ^ log2Fuel f (m / 2) := by ring
        rw [this]; omega
      · have : 2 ^ (log2Fuel f (m / 2) + 1 + 1) =
            2 * 2 ^ (log2Fuel f (m / 2) + 1) := by ring
        rw [this]; omega

theorem iters_eq (n : ℕ) : iters n = log2Fuel (n + 1) (n + 1) := by
  simp [iters, lg]

theorem iters_bounds (n : ℕ) :
    2 ^ iters n ≤ n + 1 ∧ n + 1 < 2 ^ (iters n + 1) := by
  rw [iters_eq]
  exact log2Fuel_bounds (n + 1) (n + 1) (by omega) le_rfl

theorem iters_le (n : ℕ) : iters n ≤ n := by
  have h1 := (iters_bounds n).1
  have h2 := Nat.lt_two_pow (iters n)
  omega

/-! ## The in-order index list: membership, nodup, fuel irrelevance -/

theorem div_pow_div (j d e : ℕ) (h : d ≤ e) :
    j / 2 ^ e = (j / 2 ^ d) / 2 ^ (e - d) := by
  rw [Nat.div_div_eq_div_mul, ← pow_add]
  congr 2
  omega

theorem mem_inorderFuel {n : ℕ} : ∀ f k j, 0 < k → j ∈ inorderFuel n f k →
    j ≤ n ∧ ∃ d, j / 2 ^ d = k := by
  intro f
  induction f with
  | zero => intro k j _ hj; simp [inorderFuel] at hj
  | succ f ih =>
    intro k j hk hj
    simp only [inorderFuel] at hj
    by_cases hkn : k ≤ n
    · rw [if_pos hkn] at hj
      rcases List.mem_append.mp hj with hL | hR
      · obtain ⟨hd, d, he⟩ := ih (2 * k) j (by omega) hL
        refine ⟨hd, d + 1, ?_⟩
        rw [pow_succ, ← Nat.div_div_eq_div_mul, he]
        omega
      · rcases List.mem_cons.mp hR with rfl | hR
        · exact ⟨hkn, 0, by simp⟩
        · obtain ⟨hd, d, he⟩ := ih (2 * k + 1) j (by omega) hR
          refine ⟨hd, d + 1, ?_⟩
          rw [pow_succ, ← Nat.div_div_eq_div_mul, he]
          omega
    · rw [if_neg hkn] at hj
      simp at hj

theorem mem_inorderFuel_le {n f k j : ℕ} (hk : 0 < k)
    (hj : j ∈ inorderFuel n f k) : k ≤ j := by
  obtain ⟨_, d, hd⟩ := mem_inorderFuel f k j hk hj
  calc k = j / 2 ^ d := hd.symm
    _ ≤ j := Nat.div_le_self _ _

theorem mem_inorderFuel_pos {n f k j : ℕ} (hk : 0 < k)
    (hj : j ∈ inorderFuel n f k) : 0 < j :=
  lt_of_lt_of_le hk (mem_inorderFuel_le hk hj)

/-- A node cannot lie in both the left and the right subtree of `k`. -/
theorem anc_not_both {j k : ℕ} (hk : 0 < k)
    (hl : ∃ d, j / 2 ^ d = 2 * k) (hr : ∃ e, j / 2 ^ e = 2 * k + 1) : False := by
  obtain ⟨d, hd⟩ := hl
  obtain ⟨e, he⟩ := hr
  rcases le_or_lt d e with h | h
  · rcases eq_or_lt_of_le h with rfl | h
    · omega
    · rw [div_pow_div j d e (by omega), hd] at he
      have hp : (2 : ℕ) ≤ 2 ^ (e - d) := by
        calc (2 : ℕ) = 2 ^ 1 := by norm_num
          _ ≤ 2 ^ (e - d) := Nat.pow_le_pow_right (by norm_num) (by omega)
      have h1 : 2 * k / 2 ^ (e - d) ≤ 2 * k / 2 :=
        Nat.div_le_div_left hp (by norm_num)
      omega
  · rw [div_pow_div j e d (by omega), he] at hd
    have hp : (2 : ℕ) ≤ 2 ^ (d - e) := by
      calc (2 : ℕ) = 2 ^ 1 := by norm_num
        _ ≤ 2 ^ (d - e) := Nat.pow_le_pow_right (by norm_num) (by omega)
    have h1 : (2 * k + 1) / 2 ^ (d - e) ≤ (2 * k + 1) / 2 :=
      Nat.div_le_div_left hp (by norm_num)
    omega

theorem inorderFuel_nodup {n : ℕ} : ∀ f k, 0 < k → (inorderFuel n f k).Nodup := by
  intro f
  induction f with
  | zero => intro k _; simp [inorderFuel]
  | succ f ih =>
    intro k hk
    simp only [inorderFuel]
    by_cases hkn : k ≤ n
    · rw [if_pos hkn]
      rw [List.nodup_append]
      refine ⟨ih (2 * k) (by omega), ?_, ?_⟩
      · rw [List.nodup_cons]
        constructor
        · intro hmem
          have := mem_inorderFuel_le (by omega) hmem
          omega
        · exact ih (2 * k + 1) (by omega)
      · intro j hjL hjR
        rcases List.mem_cons.mp hjR with rfl | hjR
        · have := mem_inorderFuel_le (by omega : (0:ℕ) < 2 * j) hjL
          omega
        · exact anc_not_both hk
            (mem_inorderFuel f (2 * k) j (by omega) hjL).2
            (mem_inorderFuel f (2 * k + 1) j (by omega) hjR).2
    · rw [if_neg hkn]
      simp

theorem inorderFuel_irrel {n : ℕ} : ∀ f f' k, 0 < k → n + 2 ≤ k + f →
    n + 2 ≤ k + f' → inorderFuel n f k = inorderFuel n f' k := by
  intro f
  induction f with
  | zero =>
    intro f' k hk hf hf'
    have hkn : ¬ k ≤ n := by omega
    cases f' with
    | zero => rfl
    | succ g => simp [inorderFuel, hkn]
  | succ f ih =>
    intro f' k hk hf hf'
    cases f' with
    | zero =>
      have hkn : ¬ k ≤ n := by omega
      simp [inorderFuel, hkn]
    | succ g =>
      simp only [inorderFuel]
      by_cases hkn : k ≤ n
      · rw [if_pos hkn, if_pos hkn,
          ih g (2 * k) (by omega) (by omega) (by omega),
          ih g (2 * k + 1) (by omega) (by omega) (by omega)]
      · rw [if_neg hkn, if_neg hkn]

theorem inorder_unfold (n k : ℕ) (hk : 0 < k) :
    inorder n k =
      if k ≤ n then inorder n (2 * k) ++ k :: inorder n (2 * k + 1)
      else [] := by
  show inorderFuel n (n + 1) k = _
  simp only [inorderFuel]
  by_cases hkn : k ≤ n
  · rw [if_pos hkn, if_pos hkn,
      inorderFuel_irrel n (n + 1) (2 * k) (by omega) (by omega) (by omega),
      inorderFuel_irrel n (n + 1) (2 * k + 1) (by omega) (by omega) (by omega)]
    rfl
  · rw [if_neg hkn, if_neg hkn]

theorem mem_inorder_of_anc {n : ℕ} :
    ∀ d j k, 0 < k → j ≤ n → j / 2 ^ d = k → j ∈ inorder n k := by
  intro d
  induction d with
  | zero =>
    intro j k hk hj hd
    simp only [pow_zero, Nat.div_one] at hd
    subst hd
    rw [inorder_unfold n j hk, if_pos hj]
    simp
  | succ d ih =>
    intro j k hk hj hd
    have hc2 : j / 2 ^ d / 2 = k := by
      rw [Nat.div_div_eq_div_mul, ← pow_succ, hd]
    set c := j / 2 ^ d with hc
    have hcpos : 0 < c := by omega
    have hmem : j ∈ inorder n c := ih j c hcpos hj hc.symm
    have hkn : k ≤ n := by
      have : k ≤ j := by
        calc k = j / 2 ^ (d + 1) := hd.symm
          _ ≤ j := Nat.div_le_self _ _
      omega
    rw [inorder_unfold n k hk, if_pos hkn]
    rcases (by omega : c = 2 * k ∨ c = 2 * k + 1) with hcase | hcase
    · exact List.mem_append.mpr (Or.inl (hcase ▸ hmem))
    · refine List.mem_append.mpr (Or.inr (List.mem_cons.mpr (Or.inr ?_)))
      exact hcase ▸ hmem

theorem mem_inorder_root {n j : ℕ} : j ∈ inorder n 1 ↔ 1 ≤ j ∧ j ≤ n := by
  constructor
  · intro h
    obtain ⟨h1, _⟩ := mem_inorderFuel (n + 1) 1 j (by omega) h
    exact ⟨mem_inorderFuel_le (by omega) h, h1⟩
  · rintro ⟨h1, h2⟩
    have hb := log2Fuel_bounds j j h1 le_rfl
    apply mem_inorder_of_anc (log2Fuel j j) j 1 (by omega) h2
    have hlt : j < 2 * 2 ^ log2Fuel j j := by
      have : 2 ^ (log2Fuel j j + 1) = 2 * 2 ^ log2Fuel j j := by ring
      omega
    exact Nat.div_eq_of_lt_le (by simpa using hb.1) (by simpa using hlt)

theorem inorder_root_nodup (n : ℕ) : (inorder n 1).Nodup :=
  inorderFuel_nodup (n + 1) 1 (by omega)

theorem inorder_root_length (n : ℕ) : (inorder n 1).length = n := by
  have hnd := inorder_root_nodup n
  have hfin : (inorder n 1).toFinset = Finset.Icc 1 n := by
    ext j
    simp [List.mem_toFinset, mem_inorder_root, Finset.mem_Icc]
  have hcard := List.toFinset_card_of_nodup hnd
  rw [hfin] at hcard
  rw [← hcard, Nat.card_Icc]
  omega

/-! ## Correctness of the layout builder -/

/-- Main structural lemma about `eytzAux`: run on subtree `k` with cursor `i`,
it advances the cursor by the subtree size, writes nothing outside the
subtree's index set, and stores `arr[i + idx]` at the `idx`-th index of the
in-order walk of the subtree. -/
theorem eytzAux_spec (n : ℕ) (arr : List ℤ) : ∀ f i k t, 0 < k →
    (eytzAux n arr f i k t).1 = i + (inorderFuel n f k).length ∧
    (∀ j, j ∉ inorderFuel n f k → (eytzAux n arr f i k t).2 j = t j) ∧
    (∀ idx, (hidx : idx < (inorderFuel n f k).length) →
      (eytzAux n arr f i k t).2 ((inorderFuel n f k)[idx]) =
        arr.getD (i + idx) 0) := by
  intro f
  induction f with
  | zero =>
    intro i k t hk
    refine ⟨by simp [eytzAux, inorderFuel], ?_, ?_⟩
    · intro j _; simp [eytzAux]
    · intro idx hidx; simp [inorderFuel] at hidx
  | succ f ih =>
    intro i k t hk
    by_cases hkn : k ≤ n
    case neg =>
      have hL : inorderFuel n (f + 1) k = [] := by
        simp [inorderFuel, hkn]
      refine ⟨by simp [eytzAux, hkn, hL], ?_, ?_⟩
      · intro j _; simp [eytzAux, hkn]
      · intro idx hidx; rw [hL] at hidx; simp at hidx
    case pos =>
      have hL : inorderFuel n (f + 1) k =
          inorderFuel n f (2 * k) ++ k :: inorderFuel n f (2 * k + 1) := by
        simp [inorderFuel, hkn]
      have hE : eytzAux n arr (f + 1) i k t =
          eytzAux n arr f ((eytzAux n arr f i (2 * k) t).1 + 1) (2 * k + 1)
            (upd (eytzAux n arr f i (2 * k) t).2 k
              (arr.getD (eytzAux n arr f i (2 * k) t).1 0)) := by
        simp [eytzAux, hkn]
      obtain ⟨ih1a, ih1b, ih1c⟩ := ih i (2 * k) t (by omega)
      set p := eytzAux n arr f i (2 * k) t with hp
      set v := arr.getD p.1 0 with hv
      obtain ⟨ih2a, ih2b, ih2c⟩ := ih (p.1 + 1) (2 * k + 1) (upd p.2 k v) (by omega)
      set q := eytzAux n arr f (p.1 + 1) (2 * k + 1) (upd p.2 k v) with hq
      set L₁ := inorderFuel n f (2 * k) with hL₁
      set L₂ := inorderFuel n f (2 * k + 1) with hL₂
      have hkL₁ : k ∉ L₁ := by
        intro hmem
        have := mem_inorderFuel_le (by omega : 0 < 2 * k) hmem
        omega
      have hkL₂ : k ∉ L₂ := by
        intro hmem
        have := mem_inorderFuel_le (by omega : 0 < 2 * k + 1) hmem
        omega
      have hdisj : ∀ j, j ∈ L₁ → j ∉ L₂ := by
        intro j hj1 hj2
        exact anc_not_both hk
          (mem_inorderFuel f (2 * k) j (by omega) hj1).2
          (mem_inorderFuel f (2 * k + 1) j (by omega) hj2).2
      refine ⟨?_, ?_, ?_⟩
      · rw [hE, hL]
        show q.1 = _
        rw [ih2a, ih1a]
        simp only [List.length_append, List.length_cons]
        omega
      · intro j hj
        rw [hL] at hj
        simp only [List.mem_append, List.mem_cons, not_or] at hj
        obtain ⟨hj1, hj2, hj3⟩ := hj
        rw [hE]
        show q.2 j = t j
        rw [ih2b j hj3]
        show (if j = k then v else p.2 j) = t j
        rw [if_neg hj2, ih1b j hj1]
      · intro idx hidx
        rw [hL] at hidx
        simp only [List.length_append, List.length_cons] at hidx
        rw [hE]
        simp only [hL]
        have hidx3 : idx < (L₁ ++ k :: L₂).length := by
          simp only [List.length_append, List.length_cons]
          omega
        show q.2 ((L₁ ++ k :: L₂)[idx]) = arr.getD (i + idx) 0
        rcases (by omega :
            idx < L₁.length ∨ idx = L₁.length ∨
              (L₁.length + 1 ≤ idx ∧ idx - L₁.length - 1 < L₂.length))
            with h1 | h2 | h3
        · rw [List.getElem_append_left h1]
          have hmem : L₁[idx] ∈ L₁ := List.getElem_mem h1
          have hne : L₁[idx] ≠ k := fun he => hkL₁ (he ▸ hmem)
          rw [ih2b _ (hdisj _ hmem)]
          show (if L₁[idx] = k then v else p.2 L₁[idx]) = _
          rw [if_neg hne, ih1c idx h1]
        · subst h2
          rw [List.getElem_append_right (le_refl L₁.length)]
          simp only [Nat.sub_self, List.getElem_cons_zero]
          rw [ih2b _ hkL₂]
          show (if k = k then v else p.2 k) = _
          rw [if_pos rfl, hv, ih1a]
        · obtain ⟨h3a, h3b⟩ := h3
          rw [List.getElem_append_right (by omega)]
          obtain ⟨m, hm⟩ : ∃ m, idx - L₁.length = m + 1 :=
            ⟨idx - L₁.length - 1, by omega⟩
          simp only [hm, List.getElem_cons_succ]
          rw [ih2c m (by omega), ih1a]
          congr 1
          omega

/-- The constructor never writes index `0`: the sentinel survives. -/
theorem buildT_zero (arr : List ℤ) : buildT arr 0 = -1 := by
  obtain ⟨_, hoff, _⟩ :=
    eytzAux_spec arr.length arr (arr.length + 1) 0 1
      (fun j => if j = 0 then (-1 : ℤ) else 0) (by omega)
  have h0 : (0 : ℕ) ∉ inorderFuel arr.length (arr.length + 1) 1 := by
    intro hmem
    exact absurd (mem_inorderFuel_pos (by omega) hmem) (by omega)
  show (eytzAux arr.length arr (arr.length + 1) 0 1 _).2 0 = -1
  rw [hoff 0 h0]
  simp

/-- The constructor writes only indices `1..n`: everything above `n` keeps the
`resize` default `0`.  Together with `buildT_zero` this expresses that the
store occupies exactly `n + 1` cells. -/
theorem buildT_gt (arr : List ℤ) (j : ℕ) (hj : arr.length < j) :
    buildT arr j = 0 := by
  obtain ⟨_, hoff, _⟩ :=
    eytzAux_spec arr.length arr (arr.length + 1) 0 1
      (fun j => if j = 0 then (-1 : ℤ) else 0) (by omega)
  have h0 : j ∉ inorderFuel arr.length (arr.length + 1) 1 := by
    intro hmem
    exact absurd (mem_inorderFuel (arr.length + 1) 1 j (by omega) hmem).1
      (by omega)
  show (eytzAux arr.length arr (arr.length + 1) 0 1 _).2 j = 0
  rw [hoff j h0]
  simp only [if_neg (by omega : j ≠ 0)]

/-- In-order correctness of the layout: reading the built store along the
in-order walk of the implicit tree reproduces the input sequence. -/
theorem buildT_map (arr : List ℤ) :
    (inorder arr.length 1).map (buildT arr) = arr := by
  obtain ⟨_, _, hval⟩ :=
    eytzAux_spec arr.length arr (arr.length + 1) 0 1
      (fun j => if j = 0 then (-1 : ℤ) else 0) (by omega)
  have hlen : (inorder arr.length 1).length = arr.length :=
    inorder_root_length arr.length
  apply List.ext_getElem (by simp [hlen])
  intro idx h₁ h₂
  rw [List.getElem_map]
  have hidx : idx < (inorder arr.length 1).length := by
    simp at h₁
    omega
  show buildT arr ((inorder arr.length 1)[idx]) = arr[idx]
  rw [show buildT arr ((inorder arr.length 1)[idx]) =
      arr.getD (0 + idx) 0 from hval idx hidx]
  rw [Nat.zero_add, List.getD_eq_getElem arr 0 h₂]

/-! ## The descent of `lower_bound_original` and the bit-trick ghost -/

theorem lbLoop_exit {n : ℕ} {t : ℕ → ℤ} {x : ℤ} (f k : ℕ) (hk : n < k) :
    lbLoop n t x f k = k := by
  cases f with
  | zero => rfl
  | succ f => simp [lbLoop, Nat.not_le.mpr hk]

theorem lbLoop_step {n : ℕ} {t : ℕ → ℤ} {x : ℤ} (f k : ℕ) (hk : k ≤ n) :
    lbLoop n t x (f + 1) k =
      lbLoop n t x f (2 * k + if t k < x then 1 else 0) := by
  simp [lbLoop, hk]

theorem findGE_nil (t : ℕ → ℤ) (x : ℤ) (c : ℕ) : findGE t x [] c = c := rfl

theorem findGE_append_none (t : ℕ → ℤ) (x : ℤ) (l₁ l₂ : List ℕ) (c : ℕ)
    (h : ∀ j ∈ l₁, ¬ x ≤ t j) :
    findGE t x (l₁ ++ l₂) c = findGE t x l₂ c := by
  unfold findGE
  rw [List.find?_append]
  have hnone : l₁.find? (fun j => decide (x ≤ t j)) = none := by
    rw [List.find?_eq_none]
    intro j hj
    simpa using h j hj
  rw [hnone, Option.none_or]

theorem findGE_append_found (t : ℕ → ℤ) (x : ℤ) (l₁ l₂ : List ℕ) (c k : ℕ)
    (hk : x ≤ t k) :
    findGE t x (l₁ ++ k :: l₂) c = findGE t x l₁ k := by
  unfold findGE
  rw [List.find?_append]
  cases hfind : l₁.find? (fun j => decide (x ≤ t j)) with
  | some j => simp
  | none => simp [hk]

/-- Splitting a sorted value list along `L₁ ++ k :: L₂`. -/
theorem sorted_split {t : ℕ → ℤ} {L₁ L₂ : List ℕ} {k : ℕ}
    (hs : ((L₁ ++ k :: L₂).map t).Sorted (· ≤ ·)) :
    (L₁.map t).Sorted (· ≤ ·) ∧ (L₂.map t).Sorted (· ≤ ·) ∧
      ∀ j ∈ L₁, t j ≤ t k := by
  rw [List.map_append, List.Sorted, List.pairwise_append] at hs
  obtain ⟨h1, h2, h3⟩ := hs
  rw [List.map_cons, List.pairwise_cons] at h2
  refine ⟨h1, h2.2, ?_⟩
  intro j hj
  exact h3 (t j) (List.mem_map_of_mem t hj) (t k) (by simp)

/-- Ghost-candidate invariant of the traversal: the bit-trick value `strip`
of the final traversal state equals the first in-order index holding a value
`≥ x`, with `strip` of the starting state as the default.  (A left move from
`k` makes `strip` equal to `k`; a right move leaves it unchanged.) -/
theorem lbLoop_strip {n : ℕ} (t : ℕ → ℤ) (x : ℤ) : ∀ f k, 0 < k →
    n + 2 ≤ k + f → ((inorder n k).map t).Sorted (· ≤ ·) →
    strip (lbLoop n t x f k) = findGE t x (inorder n k) (strip k) := by
  intro f
  induction f with
  | zero =>
    intro k hk hf _
    rw [inorder_unfold n k hk, if_neg (by omega)]
    rw [show lbLoop n t x 0 k = k from rfl, findGE_nil]
  | succ f ih =>
    intro k hk hf hs
    by_cases hkn : k ≤ n
    case neg =>
      rw [lbLoop_exit (f + 1) k (by omega), inorder_unfold n k hk, if_neg hkn,
        findGE_nil]
    case pos =>
      rw [lbLoop_step f k hkn]
      have hunf := inorder_unfold n k hk
      rw [if_pos hkn] at hunf
      rw [hunf] at hs ⊢
      obtain ⟨hs1, hs2, hle⟩ := sorted_split hs
      by_cases hcmp : t k < x
      · rw [if_pos hcmp]
        have ihr := ih (2 * k + 1) (by omega) (by omega) hs2
        rw [ihr, strip_two_mul_add_one]
        rw [findGE_append_none t x (inorder n (2 * k)) _ (strip k) ?side]
        · rw [show (k :: inorder n (2 * k + 1)) =
              [k] ++ inorder n (2 * k + 1) from rfl]
          rw [findGE_append_none t x [k] _ (strip k) ?khd]
          case khd =>
            intro j hj
            rw [List.mem_singleton] at hj
            subst hj
            omega
        case side =>
          intro j hj hxj
          have := hle j hj
          omega
      · rw [if_neg hcmp, Nat.add_zero]
        have ihl := ih (2 * k) (by omega) (by omega) hs1
        rw [ihl, strip_two_mul]
        rw [findGE_append_found t x (inorder n (2 * k)) _ (strip k) k (by omega)]

/-- Characterization of `lower_bound_original` on any store whose in-order
value sequence is sorted: it returns the first in-order tree index holding a
value not less than `x`, or `0` when there is none. -/
theorem lower_bound_original_eq_findGE (n : ℕ) (t : ℕ → ℤ) (x : ℤ)
    (hs : ((inorder n 1).map t).Sorted (· ≤ ·)) :
    lower_bound_original n t x = findGE t x (inorder n 1) 0 := by
  rw [lower_bound_original,
    lbLoop_strip t x (n + 1) 1 (by omega) (by omega) hs, strip_one]

/-- Transfer of `find?` along the in-order enumeration: searching `arr` for
the first element `≥ x` is searching the in-order index list through the
built store. -/
theorem find_arr_eq_find_inorder (arr : List ℤ) (x : ℤ) :
    arr.find? (fun v => decide (x ≤ v)) =
      ((inorder arr.length 1).find?
        (fun j => decide (x ≤ buildT arr j))).map (buildT arr) := by
  conv_lhs => rw [← buildT_map arr]
  rw [List.find?_map]
  rfl

/-- Functional correctness of `lower_bound_original` on a built store: the
result `r` lies in `[0, n]`, vanishes exactly when every element is `< x`,
and otherwise is the Eytzinger store index of the first element `≥ x`. -/
theorem lower_bound_original_spec (arr : List ℤ) (x : ℤ)
    (hs : arr.Sorted (· ≤ ·)) :
    lower_bound_original arr.length (buildT arr) x ≤ arr.length ∧
    (lower_bound_original arr.length (buildT arr) x = 0 ↔
      ∀ e ∈ arr, e < x) ∧
    (lower_bound_original arr.length (buildT arr) x ≠ 0 →
      arr.find? (fun v => decide (x ≤ v)) =
        some (buildT arr (lower_bound_original arr.length (buildT arr) x))) := by
  have hmap : ((inorder arr.length 1).map (buildT arr)).Sorted (· ≤ ·) := by
    rw [buildT_map arr]
    exact hs
  have hchar := lower_bound_original_eq_findGE arr.length (buildT arr) x hmap
  have htrans := find_arr_eq_find_inorder arr x
  cases hfind : (inorder arr.length 1).find?
      (fun j => decide (x ≤ buildT arr j)) with
  | none =>
    have hr : lower_bound_original arr.length (buildT arr) x = 0 := by
      rw [hchar]
      unfold findGE
      rw [hfind]
    rw [hfind] at htrans
    simp only [Option.map] at htrans
    rw [List.find?_eq_none] at htrans
    rw [hr]
    refine ⟨by omega, ?_, ?_⟩
    · simp only [true_iff]
      intro e he
      have := htrans e he
      simp at this
      omega
    · intro hne
      exact absurd rfl hne
  | some j =>
    have hr : lower_bound_original arr.length (buildT arr) x = j := by
      rw [hchar]
      unfold findGE
      rw [hfind]
    rw [hfind] at htrans
    have hmem : j ∈ inorder arr.length 1 :=
      List.mem_of_find?_eq_some hfind
    have hjn := (mem_inorder_root.mp hmem).2
    have hj1 := (mem_inorder_root.mp hmem).1
    have hxj : x ≤ buildT arr j := by
      have := List.find?_some hfind
      simpa using this
    have hjval : buildT arr j ∈ arr := by
      have := List.mem_map_of_mem (buildT arr) hmem
      rwa [buildT_map arr] at this
    rw [hr]
    refine ⟨hjn, ?_, ?_⟩
    · constructor
      · intro h0
        exact absurd h0 (by omega)
      · intro hall
        have := hall (buildT arr j) hjval
        omega
    · intro _
      simpa using htrans

/-! ## The fixed-iteration variants -/

theorem fixedLoop_growth (n : ℕ) (t : ℕ → ℤ) (x : ℤ) : ∀ i k,
    2 ^ i * k ≤ fixedLoop n t x i k ∧
      fixedLoop n t x i k ≤ 2 ^ i * (k + 1) - 1 := by
  intro i
  induction i with
  | zero => intro k; simp [fixedLoop]
  | succ i ih =>
    intro k
    have hstep : fixedLoop n t x (i + 1) k =
        fixedLoop n t x i (2 * k + if t k < x then 1 else 0) := rfl
    by_cases hc : t k < x
    · rw [hstep, if_pos hc]
      obtain ⟨h1, h2⟩ := ih (2 * k + 1)
      constructor
      · calc 2 ^ (i + 1) * k = 2 ^ i * (2 * k) := by ring
          _ ≤ 2 ^ i * (2 * k + 1) := Nat.mul_le_mul_left _ (by omega)
          _ ≤ _ := h1
      · calc fixedLoop n t x i (2 * k + 1) ≤ 2 ^ i * (2 * k + 1 + 1) - 1 := h2
          _ = 2 ^ (i + 1) * (k + 1) - 1 := by
              congr 1
              rw [pow_succ]
              ring
    · rw [hstep, if_neg hc, Nat.add_zero]
      obtain ⟨h1, h2⟩ := ih (2 * k)
      constructor
      · calc 2 ^ (i + 1) * k = 2 ^ i * (2 * k) := by ring
          _ ≤ _ := h1
      · calc fixedLoop n t x i (2 * k) ≤ 2 ^ i * (2 * k + 1) - 1 := h2
          _ ≤ 2 ^ (i + 1) * (k + 1) - 1 := by
              have : 2 ^ i * (2 * k + 1) ≤ 2 ^ i * (2 * k + 2) :=
                Nat.mul_le_mul_left _ (by omega)
              have he : 2 ^ (i + 1) * (k + 1) = 2 ^ i * (2 * k + 2) := by
                rw [pow_succ]; ring
              omega

/-- Peeling the fixed loop from the other end: one extra iteration applies
one more branch-free step to the result. -/
theorem fixedLoop_succ_out (n : ℕ) (t : ℕ → ℤ) (x : ℤ) : ∀ i k,
    fixedLoop n t x (i + 1) k =
      2 * fixedLoop n t x i k +
        if t (fixedLoop n t x i k) < x then 1 else 0 := by
  intro i
  induction i with
  | zero => intro k; rfl
  | succ i ih =>
    intro k
    have h1 : fixedLoop n t x (i + 1 + 1) k =
        fixedLoop n t x (i + 1) (2 * k + if t k < x then 1 else 0) := rfl
    have h2 : fixedLoop n t x (i + 1) k =
        fixedLoop n t x i (2 * k + if t k < x then 1 else 0) := rfl
    rw [h1, h2, ih]

/-- During the first `iters` levels the while-loop of the original variant
always continues, so it coincides with the unconditional fixed loop. -/
theorem lbLoop_phase (n : ℕ) (t : ℕ → ℤ) (x : ℤ) : ∀ i, i ≤ iters n →
    lbLoop n t x (n + 1) 1 = lbLoop n t x (n + 1 - i) (fixedLoop n t x i 1) := by
  intro i
  induction i with
  | zero => intro _; rfl
  | succ i ih =>
    intro hi
    have hK := fixedLoop_growth n t x i 1
    have hpow : 2 ^ (i + 1) ≤ 2 ^ iters n :=
      Nat.pow_le_pow_right (by norm_num) hi
    have hlog := iters_bounds n
    have hKn : fixedLoop n t x i 1 ≤ n := by
      have h2 : 2 ^ i * (1 + 1) = 2 ^ (i + 1) := by ring
      omega
    have hle : i ≤ n := le_trans (le_trans (by omega) hi) (iters_le n)
    rw [ih (by omega)]
    have hfuel : n + 1 - i = (n - i) + 1 := by omega
    rw [hfuel, lbLoop_step (n - i) _ hKn, ← fixedLoop_succ_out]
    congr 1
    omega

/-- The predicated final step of `lower_bound_fixed_iter` agrees with the
last step (or the exit) of the while-loop, provided the sentinel comparison
`t[0] < x` comes out true.  This is the key equivalence between Variant A
and Variant B. -/
theorem fixed_iter_eq_original (n : ℕ) (t : ℕ → ℤ) (x : ℤ) (hx : t 0 < x) :
    lower_bound_fixed_iter n t x = lower_bound_original n t x := by
  have hphase := lbLoop_phase n t x (iters n) le_rfl
  have hK := fixedLoop_growth n t x (iters n) 1
  have hlog := iters_bounds n
  have h2 : 2 ^ iters n * (1 + 1) = 2 ^ (iters n + 1) := by ring
  rw [lower_bound_original, hphase]
  show strip (2 * fixedLoop n t x (iters n) 1 +
      if (if fixedLoop n t x (iters n) 1 ≤ n
        then t (fixedLoop n t x (iters n) 1) else t 0) < x then 1 else 0) =
    strip (lbLoop n t x (n + 1 - iters n) (fixedLoop n t x (iters n) 1))
  set K := fixedLoop n t x (iters n) 1 with hKdef
  by_cases hKn : K ≤ n
  · have hfuel : n + 1 - iters n = (n - iters n) + 1 := by
      have := iters_le n
      omega
    rw [hfuel, lbLoop_step (n - iters n) K hKn]
    rw [lbLoop_exit _ _ (by omega : n < 2 * K + if t K < x then 1 else 0)]
    rw [if_pos hKn]
  · rw [lbLoop_exit _ _ (by omega : n < K)]
    rw [if_neg hKn, if_pos hx, strip_two_mul_add_one]

/-! ## Prefetch variants compute identically -/

theorem lbLoopPre_eq_lbLoop (n : ℕ) (t : ℕ → ℤ) (x : ℤ) :
    ∀ f k, lbLoopPre n t x f k = lbLoop n t x f k := by
  intro f
  induction f with
  | zero => intro k; rfl
  | succ f ih =>
    intro k
    by_cases hk : k ≤ n <;> simp [lbLoopPre, lbLoop, hk, ih]

theorem fixedLoopPre_eq_fixedLoop (n : ℕ) (t : ℕ → ℤ) (x : ℤ) :
    ∀ i k, fixedLoopPre n t x i k = fixedLoop n t x i k := by
  intro i
  induction i with
  | zero => intro k; rfl
  | succ i ih => intro k; simp [fixedLoopPre, fixedLoop, ih]

theorem prefetch_eq_original (n : ℕ) (t : ℕ → ℤ) (x : ℤ) :
    lower_bound_prefetch n t x = lower_bound_original n t x := by
  rw [lower_bound_prefetch, lower_bound_original, lbLoopPre_eq_lbLoop]

theorem fixed_iter_prefetch_eq_fixed_iter (n : ℕ) (t : ℕ → ℤ) (x : ℤ) :
    lower_bound_fixed_iter_prefetch n t x = lower_bound_fixed_iter n t x := by
  simp only [lower_bound_fixed_iter_prefetch, lower_bound_fixed_iter,
    fixedLoopPre_eq_fixedLoop]

/-! ## Bounds of the fixed-iteration loop -/

theorem fixedLoop_inbounds (n : ℕ) (t : ℕ → ℤ) (x : ℤ) (i : ℕ)
    (hi : i < iters n) :
    1 ≤ fixedLoop n t x i 1 ∧ fixedLoop n t x i 1 ≤ n := by
  have hK := fixedLoop_growth n t x i 1
  have hpow : 2 ^ (i + 1) ≤ 2 ^ iters n :=
    Nat.pow_le_pow_right (by norm_num) hi
  have hlog := iters_bounds n
  have h2 : 2 ^ i * (1 + 1) = 2 ^ (i + 1) := by ring
  have hp : 1 ≤ 2 ^ i := Nat.one_le_two_pow
  omega

theorem fixedLoop_after_le (n : ℕ) (t : ℕ → ℤ) (x : ℤ) :
    fixedLoop n t x (iters n) 1 ≤ 2 * n + 1 := by
  have hK := fixedLoop_growth n t x (iters n) 1
  have hlog := iters_bounds n
  have h2 : 2 ^ iters n * (1 + 1) = 2 ^ (iters n + 1) := by ring
  omega

/-! ## The reference searches: `std_lower_bound` and `naive_binary_search` -/

theorem std_lower_bound_le_length (arr : List ℤ) (x : ℤ) :
    std_lower_bound arr x ≤ arr.length := by
  induction arr with
  | nil => simp [std_lower_bound]
  | cons a l ih =>
    by_cases ha : (a < x)
    · simp only [std_lower_bound, List.takeWhile_cons, decide_eq_true ha]
      simp only [std_lower_bound] at ih
      simp [ih]
    · simp [std_lower_bound, List.takeWhile_cons, ha]

theorem getD_lt_of_lt_std (arr : List ℤ) (x : ℤ) :
    ∀ i, i < std_lower_bound arr x → arr.getD i 0 < x := by
  induction arr with
  | nil => intro i hi; simp [std_lower_bound] at hi
  | cons a l ih =>
    intro i hi
    by_cases ha : (a < x)
    · simp only [std_lower_bound, List.takeWhile_cons, decide_eq_true ha,
        List.length_cons] at hi
      cases i with
      | zero => simpa using ha
      | succ i =>
        simp only [List.getD_cons_succ]
        exact ih i (by simpa [std_lower_bound] using hi)
    · simp [std_lower_bound, List.takeWhile_cons, ha] at hi

theorem le_getD_std (arr : List ℤ) (x : ℤ)
    (h : std_lower_bound arr x < arr.length) :
    x ≤ arr.getD (std_lower_bound arr x) 0 := by
  induction arr with
  | nil => simp at h
  | cons a l ih =>
    by_cases ha : (a < x)
    · have hstd : std_lower_bound (a :: l) x = std_lower_bound l x + 1 := by
        simp [std_lower_bound, List.takeWhile_cons, ha]
      rw [hstd]
      simp only [List.getD_cons_succ]
      apply ih
      rw [hstd] at h
      simpa using h
    · have hstd : std_lower_bound (a :: l) x = 0 := by
        simp [std_lower_bound, List.takeWhile_cons, ha]
      rw [hstd]
      simp only [List.getD_cons_zero]
      omega

/-- Any index bounded by the length, preceded only by elements `< x` and
followed (if anywhere) by an element `≥ x`, is the partition point. -/
theorem std_unique (arr : List ℤ) (x : ℤ) (m : ℕ) (hm : m ≤ arr.length)
    (hlt : ∀ i, i < m → arr.getD i 0 < x)
    (hge : m = arr.length ∨ x ≤ arr.getD m 0) :
    m = std_lower_bound arr x := by
  rcases lt_trichotomy m (std_lower_bound arr x) with h | h | h
  · have hR := std_lower_bound_le_length arr x
    have hmx := getD_lt_of_lt_std arr x m h
    rcases hge with he | hge
    · omega
    · omega
  · exact h
  · have h1 := hlt (std_lower_bound arr x) h
    have h2 := le_getD_std arr x (by omega)
    omega

/-- On a sorted list the partition point is the count of elements `< x`. -/
theorem countLt_eq_std (arr : List ℤ) (x : ℤ) (hs : arr.Sorted (· ≤ ·)) :
    countLt arr x = std_lower_bound arr x := by
  induction arr with
  | nil => rfl
  | cons a l ih =>
    rw [List.sorted_cons] at hs
    obtain ⟨ha, hl⟩ := hs
    by_cases hax : (a < x)
    · have h1 : countLt (a :: l) x = countLt l x + 1 := by
        simp [countLt, List.countP_cons, hax]
      have h2 : std_lower_bound (a :: l) x = std_lower_bound l x + 1 := by
        simp [std_lower_bound, List.takeWhile_cons, hax]
      rw [h1, h2, ih hl]
    · have h1 : countLt (a :: l) x = countLt l x := by
        simp [countLt, List.countP_cons, hax]
      have h2 : std_lower_bound (a :: l) x = 0 := by
        simp [std_lower_bound, List.takeWhile_cons, hax]
      have h3 : countLt l x = 0 := by
        simp only [countLt, List.countP_eq_zero]
        intro b hb
        have := ha b hb
        simp only [decide_eq_true_eq]
        omega
      rw [h1, h2, h3]

theorem sorted_getD_mono (arr : List ℤ) (hs : arr.Sorted (· ≤ ·)) (i j : ℕ)
    (hij : i ≤ j) (hj : j < arr.length) : arr.getD i 0 ≤ arr.getD j 0 := by
  rcases eq_or_lt_of_le hij with rfl | h
  · exact le_refl _
  · have hp := List.pairwise_iff_get.mp hs ⟨i, by omega⟩ ⟨j, hj⟩ h
    rw [List.getD_eq_getElem arr 0 (by omega : i < arr.length),
      List.getD_eq_getElem arr 0 hj]
    exact hp

/-- Correctness of the bisection loop of `naive_binary_search` under its
loop invariant. -/
theorem naiveLoop_spec (arr : List ℤ) (x : ℤ) (hs : arr.Sorted (· ≤ ·)) :
    ∀ f low high, high - low ≤ 2 ^ f → low < high → high ≤ arr.length →
    arr.getD low 0 < x → (high = arr.length ∨ x ≤ arr.getD high 0) →
    naiveLoop arr x f low high = std_lower_bound arr x := by
  intro f
  induction f with
  | zero =>
    intro low high h1 h2 h3 h4 h5
    have hhl : high = low + 1 := by simp at h1; omega
    show high = std_lower_bound arr x
    apply std_unique arr x high h3 _ h5
    intro i hi
    have : i ≤ low := by omega
    calc arr.getD i 0 ≤ arr.getD low 0 :=
          sorted_getD_mono arr hs i low this (by omega)
      _ < x := h4
  | succ f ih =>
    intro low high h1 h2 h3 h4 h5
    by_cases hloop : 1 < high - low
    case neg =>
      have hhl : high = low + 1 := by omega
      have hres : naiveLoop arr x (f + 1) low high = high := by
        simp [naiveLoop, hloop]
      rw [hres]
      apply std_unique arr x high h3 _ h5
      intro i hi
      have : i ≤ low := by omega
      calc arr.getD i 0 ≤ arr.getD low 0 :=
            sorted_getD_mono arr hs i low this (by omega)
        _ < x := h4
    case pos =>
      have hmid1 : low < (high + low) / 2 := by omega
      have hmid2 : (high + low) / 2 < high := by omega
      have hstep : naiveLoop arr x (f + 1) low high =
          if arr.getD ((high + low) / 2) 0 < x then
            naiveLoop arr x f ((high + low) / 2) high
          else naiveLoop arr x f low ((high + low) / 2) := by
        simp [naiveLoop, hloop]
      rw [hstep]
      by_cases hc : arr.getD ((high + low) / 2) 0 < x
      · rw [if_pos hc]
        exact ih ((high + low) / 2) high (by omega) (by omega) h3 hc h5
      · rw [if_neg hc]
        exact ih low ((high + low) / 2) (by omega) (by omega) (by omega) h4
          (Or.inr (by omega))

/-- `naive_binary_search` computes the partition point on sorted input. -/
theorem naive_eq_std (arr : List ℤ) (x : ℤ) (hs : arr.Sorted (· ≤ ·)) :
    naive_binary_search arr x = std_lower_bound arr x := by
  unfold naive_binary_search
  by_cases hc : arr = [] ∨ x ≤ arr.getD 0 0
  · rw [if_pos hc]
    apply std_unique arr x 0 (by omega) (by intro i hi; omega)
    rcases hc with rfl | hx0
    · left; rfl
    · rcases Nat.eq_zero_or_pos arr.length with h0 | hpos
      · left; omega
      · right; exact hx0
  · rw [if_neg hc]
    push_neg at hc
    obtain ⟨hne, hx0⟩ := hc
    have hpos : 0 < arr.length := List.length_pos.mpr hne
    have hpow : arr.length < 2 ^ (arr.length + 1) := by
      have := Nat.lt_two_pow arr.length
      have : (2 : ℕ) ^ arr.length ≤ 2 ^ (arr.length + 1) :=
        Nat.pow_le_pow_right (by norm_num) (by omega)
      omega
    exact naiveLoop_spec arr x hs (arr.length + 1) 0 arr.length (by omega)
      hpos le_rfl (by omega) (Or.inl rfl)

/-! ## Claim theorems -/

/-- C1 (counterexample): the six algorithms do not all return the rank.  On
the ascending sequence `[1,3,5,7,9,11]` with query key `5`, the Eytzinger
variants return the Eytzinger store index `5` while the naive binary search
returns the rank `2`. -/
theorem C1_counterexample :
    lower_bound_original 6 (buildT [1, 3, 5, 7, 9, 11]) 5 = 5 ∧
    naive_binary_search [1, 3, 5, 7, 9, 11] 5 = 2 ∧
    lower_bound_original 6 (buildT [1, 3, 5, 7, 9, 11]) 5 ≠
      naive_binary_search [1, 3, 5, 7, 9, 11] 5 := by
  decide

/-- C1 (amended): for every ascending sequence and every query key `x ≥ 0`
(i.e. greater than the `-1` sentinel), the four Eytzinger variants agree and
return a value `r ∈ [0, N]` which is the Eytzinger store index of the first
element not less than `x` (`r = 0` exactly when all elements are `< x`),
while `naive_binary_search` and `std_lower_bound` both return the rank —
the count of elements strictly less than `x`. -/
theorem C1_agreement_amended (arr : List ℤ) (x : ℤ)
    (hs : arr.Sorted (· ≤ ·)) (hx : 0 ≤ x) :
    (lower_bound_prefetch arr.length (buildT arr) x =
        lower_bound_original arr.length (buildT arr) x ∧
      lower_bound_fixed_iter arr.length (buildT arr) x =
        lower_bound_original arr.length (buildT arr) x ∧
      lower_bound_fixed_iter_prefetch arr.length (buildT arr) x =
        lower_bound_original arr.length (buildT arr) x) ∧
    lower_bound_original arr.length (buildT arr) x ≤ arr.length ∧
    (lower_bound_original arr.length (buildT arr) x = 0 ↔
      ∀ e ∈ arr, e < x) ∧
    (lower_bound_original arr.length (buildT arr) x ≠ 0 →
      arr.find? (fun v => decide (x ≤ v)) =
        some (buildT arr (lower_bound_original arr.length (buildT arr) x))) ∧
    naive_binary_search arr x = countLt arr x ∧
    std_lower_bound arr x = countLt arr x := by
  have hx0 : buildT arr 0 < x := by
    rw [buildT_zero]
    omega
  have hfix := fixed_iter_eq_original arr.length (buildT arr) x hx0
  have hspec := lower_bound_original_spec arr x hs
  have hnaive := naive_eq_std arr x hs
  have hcount := countLt_eq_std arr x hs
  refine ⟨⟨prefetch_eq_original _ _ _, hfix, ?_⟩, hspec.1, hspec.2.1,
    hspec.2.2, ?_, hcount.symm⟩
  · rw [fixed_iter_prefetch_eq_fixed_iter, hfix]
  · rw [hnaive, hcount]

/-- C1 (witness): the amended statement instantiated on `[1,3,5,7,9,11]`
with key `5`. -/
theorem C1_agreement_amended_witness :
    ([1, 3, 5, 7, 9, 11] : List ℤ).Sorted (· ≤ ·) ∧ (0 : ℤ) ≤ 5 ∧
    ((lower_bound_prefetch 6 (buildT [1, 3, 5, 7, 9, 11]) 5 =
        lower_bound_original 6 (buildT [1, 3, 5, 7, 9, 11]) 5 ∧
      lower_bound_fixed_iter 6 (buildT [1, 3, 5, 7, 9, 11]) 5 =
        lower_bound_original 6 (buildT [1, 3, 5, 7, 9, 11]) 5 ∧
      lower_bound_fixed_iter_prefetch 6 (buildT [1, 3, 5, 7, 9, 11]) 5 =
        lower_bound_original 6 (buildT [1, 3, 5, 7, 9, 11]) 5) ∧
    lower_bound_original 6 (buildT [1, 3, 5, 7, 9, 11]) 5 ≤ 6 ∧
    (lower_bound_original 6 (buildT [1, 3, 5, 7, 9, 11]) 5 = 0 ↔
      ∀ e ∈ ([1, 3, 5, 7, 9, 11] : List ℤ), e < 5) ∧
    (lower_bound_original 6 (buildT [1, 3, 5, 7, 9, 11]) 5 ≠ 0 →
      ([1, 3, 5, 7, 9, 11] : List ℤ).find? (fun v => decide ((5:ℤ) ≤ v)) =
        some (buildT [1, 3, 5, 7, 9, 11]
          (lower_bound_original 6 (buildT [1, 3, 5, 7, 9, 11]) 5))) ∧
    naive_binary_search [1, 3, 5, 7, 9, 11] 5 =
      countLt [1, 3, 5, 7, 9, 11] 5 ∧
    std_lower_bound [1, 3, 5, 7, 9, 11] 5 =
      countLt [1, 3, 5, 7, 9, 11] 5) :=
  ⟨by decide, by decide,
    C1_agreement_amended [1, 3, 5, 7, 9, 11] 5 (by decide) (by decide)⟩

/-- C2 (counterexample): in the concrete scenario `[1,3,5,7,9,11]` with
query `x = 6` the claimed common result is `3`, and the naive search indeed
returns `3`, but the four Eytzinger variants return `1` (the store index of
the element `7`). -/
theorem C2_counterexample :
    naive_binary_search [1, 3, 5, 7, 9, 11] 6 = 3 ∧
    lower_bound_original 6 (buildT [1, 3, 5, 7, 9, 11]) 6 = 1 ∧
    lower_bound_original 6 (buildT [1, 3, 5, 7, 9, 11]) 6 ≠ 3 := by
  decide

/-- C2 (amended): on `[1,3,5,7,9,11]`, `naive_binary_search` and
`std_lower_bound` return the claimed ranks 2, 3, 0, 6, 0 for the keys
5, 6, 0, 12, 1; the four Eytzinger variants agree with each other on each
key but return the Eytzinger store indices 5, 1, 4, 0, 4 instead. -/
theorem C2_scenario_amended :
    (naive_binary_search [1, 3, 5, 7, 9, 11] 5 = 2 ∧
      std_lower_bound [1, 3, 5, 7, 9, 11] 5 = 2 ∧
      naive_binary_search [1, 3, 5, 7, 9, 11] 6 = 3 ∧
      std_lower_bound [1, 3, 5, 7, 9, 11] 6 = 3 ∧
      naive_binary_search [1, 3, 5, 7, 9, 11] 0 = 0 ∧
      std_lower_bound [1, 3, 5, 7, 9, 11] 0 = 0 ∧
      naive_binary_search [1, 3, 5, 7, 9, 11] 12 = 6 ∧
      std_lower_bound [1, 3, 5, 7, 9, 11] 12 = 6 ∧
      naive_binary_search [1, 3, 5, 7, 9, 11] 1 = 0 ∧
      std_lower_bound [1, 3, 5, 7, 9, 11] 1 = 0) ∧
    (lower_bound_original 6 (buildT [1, 3, 5, 7, 9, 11]) 5 = 5 ∧
      lower_bound_fixed_iter 6 (buildT [1, 3, 5, 7, 9, 11]) 5 = 5 ∧
      lower_bound_prefetch 6 (buildT [1, 3, 5, 7, 9, 11]) 5 = 5 ∧
      lower_bound_fixed_iter_prefetch 6 (buildT [1, 3, 5, 7, 9, 11]) 5 = 5) ∧
    (lower_bound_original 6 (buildT [1, 3, 5, 7, 9, 11]) 6 = 1 ∧
      lower_bound_fixed_iter 6 (buildT [1, 3, 5, 7, 9, 11]) 6 = 1 ∧
      lower_bound_prefetch 6 (buildT [1, 3, 5, 7, 9, 11]) 6 = 1 ∧
      lower_bound_fixed_iter_prefetch 6 (buildT [1, 3, 5, 7, 9, 11]) 6 = 1) ∧
    (lower_bound_original 6 (buildT [1, 3, 5, 7, 9, 11]) 0 = 4 ∧
      lower_bound_fixed_iter 6 (buildT [1, 3, 5, 7, 9, 11]) 0 = 4 ∧
      lower_bound_prefetch 6 (buildT [1, 3, 5, 7, 9, 11]) 0 = 4 ∧
      lower_bound_fixed_iter_prefetch 6 (buildT [1, 3, 5, 7, 9, 11]) 0 = 4) ∧
    (lower_bound_original 6 (buildT [1, 3, 5, 7, 9, 11]) 12 = 0 ∧
      lower_bound_fixed_iter 6 (buildT [1, 3, 5, 7, 9, 11]) 12 = 0 ∧
      lower_bound_prefetch 6 (buildT [1, 3, 5, 7, 9, 11]) 12 = 0 ∧
      lower_bound_fixed_iter_prefetch 6 (buildT [1, 3, 5, 7, 9, 11]) 12 = 0) ∧
    (lower_bound_original 6 (buildT [1, 3, 5, 7, 9, 11]) 1 = 4 ∧
      lower_bound_fixed_iter 6 (buildT [1, 3, 5, 7, 9, 11]) 1 = 4 ∧
      lower_bound_prefetch 6 (buildT [1, 3, 5, 7, 9, 11]) 1 = 4 ∧
      lower_bound_fixed_iter_prefetch 6 (buildT [1, 3, 5, 7, 9, 11]) 1 = 4) := by
  decide

/-- C3 (counterexample): the sentinel `store[0] = -1` is not strictly less
than every possible query key: the key `-1` is a legal `int` query, and
`-1 < -1` fails (likewise `-1` is not less than the representable element
`-2`). -/
theorem C3_counterexample :
    buildT [1, 3, 5, 7, 9, 11] 0 = -1 ∧
    ¬ buildT [1, 3, 5, 7, 9, 11] 0 < -1 ∧
    ¬ buildT [1, 3, 5, 7, 9, 11] 0 < -2 := by
  decide

/-- C3 (amended): after construction from any input, `store[0]` is the
sentinel `-1`; it is strictly less than every nonnegative query key, and for
such a key the predicated final step of the fixed-iteration variants, when
it reads `store[0]` because `k > n`, always takes the go-right branch
(`k := 2k + 1`). -/
theorem C3_sentinel_amended (arr : List ℤ) :
    buildT arr 0 = -1 ∧
    ∀ x : ℤ, 0 ≤ x →
      buildT arr 0 < x ∧
      ∀ k, arr.length < k →
        2 * k + (if (if k ≤ arr.length then buildT arr k else buildT arr 0)
          < x then 1 else 0) = 2 * k + 1 := by
  refine ⟨buildT_zero arr, ?_⟩
  intro x hx
  have h0 : buildT arr 0 < x := by
    rw [buildT_zero]
    omega
  refine ⟨h0, ?_⟩
  intro k hk
  rw [if_neg (by omega : ¬ k ≤ arr.length), if_pos h0]

/-- C3 (witness): the amended sentinel statement instantiated on
`[1,3,5,7,9,11]` with key `0` and out-of-range node `k = 7`. -/
theorem C3_sentinel_amended_witness :
    buildT [1, 3, 5, 7, 9, 11] 0 = -1 ∧ (0 : ℤ) ≤ 0 ∧ (6 : ℕ) < 7 ∧
    buildT [1, 3, 5, 7, 9, 11] 0 < 0 ∧
    2 * 7 + (if (if 7 ≤ 6 then buildT [1, 3, 5, 7, 9, 11] 7
      else buildT [1, 3, 5, 7, 9, 11] 0) < (0 : ℤ) then 1 else 0) =
        2 * 7 + 1 := by
  have h := C3_sentinel_amended [1, 3, 5, 7, 9, 11]
  have h2 := h.2 0 (by decide)
  exact ⟨h.1, by decide, by decide, h2.1, h2.2 7 (by decide)⟩

/-- C4 (counterexample): for the structure built from the empty sequence,
the fixed-iteration variant does not return `0` on the key `-1`: the
sentinel comparison `t[0] < x` fails, the final predicated step goes left,
and the query returns `1`. -/
theorem C4_counterexample :
    lower_bound_fixed_iter 0 (buildT []) (-1) = 1 ∧
    lower_bound_fixed_iter 0 (buildT []) (-1) ≠ 0 := by
  decide

/-- C4 (amended): on the empty sequence (`N = 0`) the reference searches and
the while-loop variants return `0` for every key, the fixed-iteration
variants return `0` for every key `x ≥ 0`; moreover no query depends on any
store index other than `0` (stores agreeing at index `0` give identical
results for every variant). -/
theorem C4_empty_amended :
    (∀ x : ℤ,
      naive_binary_search ([] : List ℤ) x = 0 ∧
      std_lower_bound ([] : List ℤ) x = 0 ∧
      lower_bound_original 0 (buildT []) x = 0 ∧
      lower_bound_prefetch 0 (buildT []) x = 0 ∧
      (0 ≤ x → lower_bound_fixed_iter 0 (buildT []) x = 0 ∧
        lower_bound_fixed_iter_prefetch 0 (buildT []) x = 0)) ∧
    (∀ (t t' : ℕ → ℤ) (x : ℤ), t 0 = t' 0 →
      lower_bound_original 0 t x = lower_bound_original 0 t' x ∧
      lower_bound_prefetch 0 t x = lower_bound_prefetch 0 t' x ∧
      lower_bound_fixed_iter 0 t x = lower_bound_fixed_iter 0 t' x ∧
      lower_bound_fixed_iter_prefetch 0 t x =
        lower_bound_fixed_iter_prefetch 0 t' x) := by
  constructor
  · intro x
    refine ⟨rfl, rfl, ?_, ?_, ?_⟩
    · show strip (lbLoop 0 (buildT []) x (0 + 1) 1) = 0
      rw [lbLoop_exit (0 + 1) 1 (by omega), strip_one]
    · show strip (lbLoopPre 0 (buildT []) x (0 + 1) 1) = 0
      rw [lbLoopPre_eq_lbLoop, lbLoop_exit (0 + 1) 1 (by omega), strip_one]
    intro hx
    have h0 : buildT ([] : List ℤ) 0 < x := by
      rw [buildT_zero]
      omega
    constructor
    · show strip (2 * 1 + if (if 1 ≤ 0 then buildT [] 1 else buildT [] 0) < x
        then 1 else 0) = 0
      rw [if_neg (by omega : ¬ (1 : ℕ) ≤ 0), if_pos h0]
      decide
    · rw [fixed_iter_prefetch_eq_fixed_iter]
      show strip (2 * 1 + if (if 1 ≤ 0 then buildT [] 1 else buildT [] 0) < x
        then 1 else 0) = 0
      rw [if_neg (by omega : ¬ (1 : ℕ) ≤ 0), if_pos h0]
      decide
  · intro t t' x h
    refine ⟨?_, ?_, ?_, ?_⟩
    · show strip (lbLoop 0 t x (0 + 1) 1) = strip (lbLoop 0 t' x (0 + 1) 1)
      rw [lbLoop_exit (0 + 1) 1 (by omega), lbLoop_exit (0 + 1) 1 (by omega)]
    · show strip (lbLoopPre 0 t x (0 + 1) 1) =
        strip (lbLoopPre 0 t' x (0 + 1) 1)
      rw [lbLoopPre_eq_lbLoop, lbLoopPre_eq_lbLoop,
        lbLoop_exit (0 + 1) 1 (by omega), lbLoop_exit (0 + 1) 1 (by omega)]
    · show strip (2 * 1 + if (if 1 ≤ 0 then t 1 else t 0) < x then 1 else 0) =
        strip (2 * 1 + if (if 1 ≤ 0 then t' 1 else t' 0) < x then 1 else 0)
      rw [if_neg (by omega : ¬ (1 : ℕ) ≤ 0), if_neg (by omega : ¬ (1 : ℕ) ≤ 0),
        h]
    · rw [fixed_iter_prefetch_eq_fixed_iter, fixed_iter_prefetch_eq_fixed_iter]
      show strip (2 * 1 + if (if 1 ≤ 0 then t 1 else t 0) < x then 1 else 0) =
        strip (2 * 1 + if (if 1 ≤ 0 then t' 1 else t' 0) < x then 1 else 0)
      rw [if_neg (by omega : ¬ (1 : ℕ) ≤ 0), if_neg (by omega : ¬ (1 : ℕ) ≤ 0),
        h]

/-- C4 (witness): the amended statement applied with key `5` (and with the
key `-7` for the while-loop variant, where no sign condition is needed), and
with the two stores `buildT []` and the constant `-1` agreeing at index 0. -/
theorem C4_empty_amended_witness :
    lower_bound_fixed_iter 0 (buildT []) 5 = 0 ∧
    lower_bound_original 0 (buildT []) (-7) = 0 ∧
    lower_bound_fixed_iter 0 (buildT []) 3 =
      lower_bound_fixed_iter 0 (fun _ => (-1 : ℤ)) 3 :=
  ⟨((C4_empty_amended.1 5).2.2.2.2 (by decide)).1,
    (C4_empty_amended.1 (-7)).2.2.1,
    (C4_empty_amended.2 (buildT []) (fun _ => (-1 : ℤ)) 3 (by decide)).2.2.1⟩

/-- C5: for every ascending input, construction confines all writes to
store cells `0..N` (`store[0]` is the sentinel, cells above `N` keep the
`resize` default, expressing the `N + 1` extent), and the in-order walk of
the implicit tree over indices `1..N` reads back exactly the input
sequence. -/
theorem C5_inorder_invariant (arr : List ℤ) (hs : arr.Sorted (· ≤ ·)) :
    (inorder arr.length 1).map (buildT arr) = arr ∧
    buildT arr 0 = -1 ∧
    ∀ j, arr.length < j → buildT arr j = 0 :=
  ⟨buildT_map arr, buildT_zero arr, fun j hj => buildT_gt arr j hj⟩

/-- C5 (witness): the in-order invariant on the concrete input
`[1,3,5,7,9,11]`. -/
theorem C5_inorder_invariant_witness :
    ([1, 3, 5, 7, 9, 11] : List ℤ).Sorted (· ≤ ·) ∧
    ((inorder 6 1).map (buildT [1, 3, 5, 7, 9, 11]) = [1, 3, 5, 7, 9, 11] ∧
      buildT [1, 3, 5, 7, 9, 11] 0 = -1 ∧
      ∀ j, 6 < j → buildT [1, 3, 5, 7, 9, 11] j = 0) :=
  ⟨by decide, C5_inorder_invariant [1, 3, 5, 7, 9, 11] (by decide)⟩

/-- C6: for every `N`, every store and every key, the state `k` entering
each of the `iters = ⌊log₂(N+1)⌋` fixed iterations satisfies `1 ≤ k ≤ N`
(all reads in bounds), and after the loop `k ≤ 2N + 1`, so only the guarded
final step can refer out of range. -/
theorem C6_fixed_iteration_safety (n : ℕ) (t : ℕ → ℤ) (x : ℤ) :
    (∀ i, i < iters n →
      1 ≤ fixedLoop n t x i 1 ∧ fixedLoop n t x i 1 ≤ n) ∧
    fixedLoop n t x (iters n) 1 ≤ 2 * n + 1 :=
  ⟨fun i hi => fixedLoop_inbounds n t x i hi, fixedLoop_after_le n t x⟩

/-- C6 (witness): safety bounds instantiated at `N = 6`,
store `buildT [1,3,5,7,9,11]`, key `5`, iteration `1 < iters 6 = 2`. -/
theorem C6_fixed_iteration_safety_witness :
    1 < iters 6 ∧
    (1 ≤ fixedLoop 6 (buildT [1, 3, 5, 7, 9, 11]) 5 1 1 ∧
      fixedLoop 6 (buildT [1, 3, 5, 7, 9, 11]) 5 1 1 ≤ 6) :=
  ⟨by decide,
    (C6_fixed_iteration_safety 6 (buildT [1, 3, 5, 7, 9, 11]) 5).1 1
      (by decide)⟩

/-- C7: prefetching never affects results — on every store and key the
prefetch variants return exactly what their non-prefetch counterparts
return. -/
theorem C7_prefetch_no_effect (n : ℕ) (t : ℕ → ℤ) (x : ℤ) :
    lower_bound_prefetch n t x = lower_bound_original n t x ∧
    lower_bound_fixed_iter_prefetch n t x = lower_bound_fixed_iter n t x :=
  ⟨prefetch_eq_original n t x, fixed_iter_prefetch_eq_fixed_iter n t x⟩

/-- C8: on every ascending sequence, `naive_binary_search` and
`std_lower_bound` both compute the count of elements strictly less than the
key, and hence agree. -/
theorem C8_reference_agreement (arr : List ℤ) (x : ℤ)
    (hs : arr.Sorted (· ≤ ·)) :
    naive_binary_search arr x = countLt arr x ∧
    std_lower_bound arr x = countLt arr x ∧
    naive_binary_search arr x = std_lower_bound arr x := by
  have h1 := naive_eq_std arr x hs
  have h2 := countLt_eq_std arr x hs
  exact ⟨by rw [h1, h2], h2.symm, h1⟩

/-- C8 (witness): the reference agreement on `[1,3,5,7,9,11]` with key `6`. -/
theorem C8_reference_agreement_witness :
    ([1, 3, 5, 7, 9, 11] : List ℤ).Sorted (· ≤ ·) ∧
    (naive_binary_search [1, 3, 5, 7, 9, 11] 6 =
        countLt [1, 3, 5, 7, 9, 11] 6 ∧
      std_lower_bound [1, 3, 5, 7, 9, 11] 6 =
        countLt [1, 3, 5, 7, 9, 11] 6 ∧
      naive_binary_search [1, 3, 5, 7, 9, 11] 6 =
        std_lower_bound [1, 3, 5, 7, 9, 11] 6) :=
  ⟨by decide, C8_reference_agreement [1, 3, 5, 7, 9, 11] 6 (by decide)⟩

/-- C9: `get_value` is total and bounds-checked: indices at or beyond the
store length `N + 1` yield the not-found value `-1`, and indices `0..N`
yield the stored value. -/
theorem C9_get_value_total (arr : List ℤ) (i : ℕ) :
    (arr.length + 1 ≤ i → get_value arr.length (buildT arr) i = -1) ∧
    (i ≤ arr.length → get_value arr.length (buildT arr) i = buildT arr i) := by
  constructor
  · intro h
    rw [get_value, if_neg (by omega)]
  · intro h
    rw [get_value, if_pos (by omega)]

/-- C9 (witness): `get_value` on the structure from `[1,3,5,7,9,11]` at the
out-of-range index `10` and the in-range index `5`. -/
theorem C9_get_value_total_witness :
    (6 + 1 ≤ 10 ∧ get_value 6 (buildT [1, 3, 5, 7, 9, 11]) 10 = -1) ∧
    (5 ≤ 6 ∧ get_value 6 (buildT [1, 3, 5, 7, 9, 11]) 5 =
      buildT [1, 3, 5, 7, 9, 11] 5) :=
  ⟨⟨by decide, (C9_get_value_total [1, 3, 5, 7, 9, 11] 10).1 (by decide)⟩,
    ⟨by decide, (C9_get_value_total [1, 3, 5, 7, 9, 11] 5).2 (by decide)⟩⟩

/-- C10: for every ascending sequence with `N ≥ 1` and every key,
`lower_bound_original` returns `r ∈ [0, N]` with `r = 0` exactly when every
stored element is strictly less than `x`; otherwise `t[r]` (the value at
Eytzinger store index `r`) is the first element of the sorted sequence not
less than `x` — the function returns the Eytzinger array index of the
lower-bound element, not its rank. -/
theorem C10_returns_store_index (arr : List ℤ) (x : ℤ)
    (hs : arr.Sorted (· ≤ ·)) (hn : 1 ≤ arr.length) :
    lower_bound_original arr.length (buildT arr) x ≤ arr.length ∧
    (lower_bound_original arr.length (buildT arr) x = 0 ↔
      ∀ e ∈ arr, e < x) ∧
    (lower_bound_original arr.length (buildT arr) x ≠ 0 →
      arr.find? (fun v => decide (x ≤ v)) =
        some (buildT arr (lower_bound_original arr.length (buildT arr) x))) :=
  lower_bound_original_spec arr x hs

/-- C10 (witness): the index semantics on `[1,3,5,7,9,11]` with key `5`. -/
theorem C10_returns_store_index_witness :
    ([1, 3, 5, 7, 9, 11] : List ℤ).Sorted (· ≤ ·) ∧ 1 ≤ 6 ∧
    (lower_bound_original 6 (buildT [1, 3, 5, 7, 9, 11]) 5 ≤ 6 ∧
      (lower_bound_original 6 (buildT [1, 3, 5, 7, 9, 11]) 5 = 0 ↔
        ∀ e ∈ ([1, 3, 5, 7, 9, 11] : List ℤ), e < 5) ∧
      (lower_bound_original 6 (buildT [1, 3, 5, 7, 9, 11]) 5 ≠ 0 →
        ([1, 3, 5, 7, 9, 11] : List ℤ).find? (fun v => decide ((5:ℤ) ≤ v)) =
          some (buildT [1, 3, 5, 7, 9, 11]
            (lower_bound_original 6 (buildT [1, 3, 5, 7, 9, 11]) 5)))) :=
  ⟨by decide, by decide,
    C10_returns_store_index [1, 3, 5, 7, 9, 11] 5 (by decide) (by decide)⟩
